import Mathlib

/-!
# Verification of a generic Markov-chain library

Shallow embedding of `src/lib.rs` (crate `markov`). Tokens of type `T` are
stored behind `Rc`, which shares ownership but preserves value equality, so
`Rc<T>` is modelled as `T` itself. A context slot `Option<Rc<T>>` becomes
`Option T` (with `none` as the boundary marker). The two `HashMap`s are
modelled as association lists whose operations touch the first matching key
only, which is the semantics of a map when keys are unique (as the library
maintains). The process-wide random source is made explicit: the sampler
receives the drawn integer, and the generation loop receives a stream of
draws together with fuel; `Rust` panics become `Except` errors.
-/

set_option autoImplicit false
set_option linter.unusedSectionVars false

namespace Markov

variable {T : Type} [DecidableEq T]

/-- A successor distribution: `HashMap<Option<Rc<T>>, usize>` as an
association list from token-or-boundary to observation count. -/
abbrev Dist (T : Type) := List (Option T × Nat)

/-- The context index: `HashMap<Vec<Option<Rc<T>>>, HashMap<...>>` as an
association list from context window to successor distribution. -/
abbrev CMap (T : Type) := List (List (Option T) × Dist T)

/-- Association-list lookup: the value at the first entry with this key. -/
def lookupMap (m : CMap T) (key : List (Option T)) : Option (Dist T) :=
  match m with
  | [] => none
  | (k, v) :: rest => if k = key then some v else lookupMap rest key

/-- Rust `HashMap::insert`: replace the value at the first entry with this key,
or append a new entry when the key is absent. -/
def insertMap (m : CMap T) (key : List (Option T)) (v : Dist T) : CMap T :=
  match m with
  | [] => [(key, v)]
  | (k, v') :: rest =>
    if k = key then (key, v) :: rest else (k, v') :: insertMap rest key v

/-- Apply `f` to the value at the first entry with this key (models
`HashMap::get_mut` followed by a mutation). -/
def updateMap (m : CMap T) (key : List (Option T)) (f : Dist T → Dist T) :
    CMap T :=
  match m with
  | [] => []
  | (k, v) :: rest =>
    if k = key then (k, f v) :: rest else (k, v) :: updateMap rest key f

/-- Method `States::add` (lib.rs 252-257): increment the count of `token`, inserting
it with count 1 when absent. -/
def distAdd (d : Dist T) (token : Option T) : Dist T :=
  match d with
  | [] => [(token, 1)]
  | (k, v) :: rest =>
    if k = token then (k, v + 1) :: rest else (k, v) :: distAdd rest token

/-- Total weight of a distribution: the sum of all counts. -/
def distTotal (d : Dist T) : Nat := (d.map (fun p => p.2)).sum

/-- The scan of `States::next` (lib.rs 266-272): running sum of counts,
return the first key whose running sum strictly exceeds `cap`. `none` is the
`unreachable!` case. -/
def distScan (d : Dist T) (cap : Nat) (sum : Nat) : Option (Option T) :=
  match d with
  | [] => none
  | (key, value) :: rest =>
    if sum + value > cap then some key else distScan rest cap (sum + value)

/-- Method `States::next` (lib.rs 259-274) given the drawn integer `cap` (the code
draws it uniformly from `[0, total)`): the first entry, in enumeration
order, whose running prefix sum of counts strictly exceeds `cap`. -/
def distNext (d : Dist T) (cap : Nat) : Option (Option T) :=
  distScan d cap 0

/-- The running prefix sum of counts over the first `i` entries. -/
def distPrefix (d : Dist T) (i : Nat) : Nat :=
  ((d.take i).map (fun p => p.2)).sum

/-- The `Chain` struct: context index plus current order. -/
structure Chain (T : Type) where
  map : CMap T
  order : Nat
  deriving DecidableEq

/-- Constructor `Chain::new` (lib.rs 51-60): order 1, with the length-1 all-boundary
window mapped to an empty distribution. -/
def Chain.new : Chain T := { map := [(List.replicate 1 none, [])], order := 1 }

/-- Method `Chain::order` (lib.rs 64-69): assert the new order is positive (`none`
models the assertion failure), set it, and insert a fresh empty distribution
at the all-boundary window of the new length. -/
def Chain.setOrder (c : Chain T) (k : Nat) : Option (Chain T) :=
  if k = 0 then none
  else some { map := insertMap c.map (List.replicate k none) [], order := k }

/-- Method `Chain::is_empty` (lib.rs 73-75): whether the distribution at the
all-boundary window of the current order is empty; `none` models the panic
of indexing a `HashMap` at an absent key. -/
def Chain.is_empty (c : Chain T) : Option Bool :=
  (lookupMap c.map (List.replicate c.order none)).map List.isEmpty

/-- Rust `slice::windows(n)`: every contiguous window of length `n`, left to
right (for `n ≥ 1`). -/
def windows (n : Nat) : List (Option T) → List (List (Option T))
  | [] => []
  | a :: rest =>
    if n ≤ (a :: rest).length ∧ n ≠ 0 then
      (a :: rest).take n :: windows n rest
    else []

/-- One iteration of the loop body of `Chain::feed` (lib.rs 87-92): the
first `order` slots of the window are the context key, the last slot the
observed successor; create the key with an empty distribution when absent,
then increment the successor's count. -/
def feedWindow (ord : Nat) (m : CMap T) (p : List (Option T)) : CMap T :=
  updateMap
    (if (lookupMap m (p.take ord)).isSome then m
      else insertMap m (p.take ord) [])
    (p.take ord) (fun d => distAdd d (p.getD ord none))

/-- Method `Chain::feed` (lib.rs 80-94): empty input returns immediately;
otherwise pad with `order` boundary markers in front and one at the end and
process every window of size `order + 1`. -/
def Chain.feed (c : Chain T) (tokens : List T) : Chain T :=
  if tokens.length = 0 then c
  else
    let toks := List.replicate c.order none ++ tokens.map some ++ [none]
    { c with map := (windows (c.order + 1) toks).foldl (feedWindow c.order) c.map }

/-- Outcomes of a generation run that do not produce a value: the panic of
sampling an empty distribution (`rng.gen_range(0, 0)`), the panic of
indexing the context index at an absent window, and exhaustion of the fuel
bound (the Rust loop has no such bound; it may diverge). -/
inductive GenError where
  | emptyDist
  | keyMissing
  | fuelOut
  deriving DecidableEq

/-- Line 106 of lib.rs, the conditional push of the sampled successor: append the
sampled successor to the output when it is a real token. -/
def genPush (ret : List T) (nxt : Option T) : List T :=
  match nxt with
  | some t => ret ++ [t]
  | none => ret

/-- The shared loop of `Chain::generate` and `Chain::generate_from_token`
(lib.rs 102-109 and 121-127). `draws i` is the integer the random source
produces at iteration `i`; the sampler uses it modulo the total weight, so
every stream of naturals enumerates exactly the draws
`rng.gen_range(0, sum)` can make. The slid window is
`curs.drop 1 ++ [nxt]` (`curs[1..order].to_vec()` then `push(next)`), and
the loop stops when its last slot (`curs[order - 1]`) is the boundary. -/
def genLoop (m : CMap T) (ord : Nat) (draws : Nat → Nat) :
    Nat → List (Option T) → List T → Nat → Except GenError (List T)
  | _, _, _, 0 => .error .fuelOut
  | i, curs, ret, fuel + 1 =>
    match lookupMap m curs with
    | none => .error .keyMissing
    | some d =>
      if distTotal d = 0 then .error .emptyDist
      else
        match distNext d (draws i % distTotal d) with
        | none => .error .emptyDist
        | some nxt =>
          if (((curs.drop 1 ++ [nxt]).getD (ord - 1) none)).isNone then
            .ok (genPush ret nxt)
          else
            genLoop m ord draws (i + 1) (curs.drop 1 ++ [nxt])
              (genPush ret nxt) fuel

/-- Method `Chain::generate` (lib.rs 99-110): run the loop from the all-boundary
window with an empty output. -/
def Chain.generate (c : Chain T) (draws : Nat → Nat) (fuel : Nat) :
    Except GenError (List T) :=
  genLoop c.map c.order draws 0 (List.replicate c.order none) [] fuel

/-- Method `Chain::generate_from_token` (lib.rs 116-129): when the window of
`order` copies of the token is absent return the empty sequence, otherwise
run the loop from that window with the token as initial output. -/
def Chain.generate_from_token (c : Chain T) (token : T) (draws : Nat → Nat)
    (fuel : Nat) : Except GenError (List T) :=
  if lookupMap c.map (List.replicate c.order (some token)) = none then .ok []
  else
    genLoop c.map c.order draws 0 (List.replicate c.order (some token))
      [token] fuel

/-! ## The text adapter (`impl Chain<String>`)

Strings are modelled as lists of characters. The only byte-level operation,
`String::truncate(len - 1)` in `vec_to_string`, always removes a trailing
one-byte ASCII space, so character-level truncation is faithful. -/

/-- Rust `str::split(" ")` on a list of characters: split at every single
space character, keeping empty fragments; splitting the empty string yields
one empty fragment. -/
def splitSpace : List Char → List (List Char)
  | [] => [[]]
  | ch :: rest =>
    if ch = ' ' then [] :: splitSpace rest
    else
      match splitSpace rest with
      | [] => [[ch]]
      | f :: fs => (ch :: f) :: fs

/-- Method `Chain::feed_str` (lib.rs 144-146): split the string on the single
space separator and feed the fragments (`to_owned` is the identity here). -/
def Chain.feed_str (c : Chain (List Char)) (s : List Char) :
    Chain (List Char) :=
  c.feed (splitSpace s)

/-- Rust `char::is_whitespace`, restricted to ASCII whitespace. -/
def isWs (ch : Char) : Bool :=
  ch = ' ' || ch = '\t' || ch = '\n' || ch = '\r'

/-- Splitting at every whitespace character while keeping empty fragments;
Rust's `str::split_whitespace` is this followed by dropping empties. -/
def splitWsRaw : List Char → List (List Char)
  | [] => [[]]
  | ch :: rest =>
    if isWs ch then [] :: splitWsRaw rest
    else
      match splitWsRaw rest with
      | [] => [[ch]]
      | f :: fs => (ch :: f) :: fs

/-- The per-line body of `Chain::feed_file` (lib.rs 152-158): tokenize the
line on whitespace, discard empty fragments, feed the result. -/
def Chain.feedFileLine (c : Chain (List Char)) (line : List Char) :
    Chain (List Char) :=
  c.feed ((splitWsRaw line).filter (fun w => !w.isEmpty))

/-- Method `Chain::feed_file` (lib.rs 150-160) applied to the lines of the file:
each line is tokenized and fed independently. -/
def Chain.feed_file (c : Chain (List Char)) (lines : List (List Char)) :
    Chain (List Char) :=
  lines.foldl Chain.feedFileLine c

/-- Method `Chain::vec_to_string` (lib.rs 163-174): append every token followed by
one space, then truncate the final character when the result is
non-empty. -/
def Chain.vec_to_string (vec : List (List Char)) : List Char :=
  let ret := vec.foldl (fun acc s => acc ++ s ++ [' ']) []
  ret.take (ret.length - 1)

/-- Method `Chain::generate_str` (lib.rs 177-179). -/
def Chain.generate_str (c : Chain (List Char)) (draws : Nat → Nat)
    (fuel : Nat) : Except GenError (List Char) :=
  (c.generate draws fuel).map Chain.vec_to_string

/-- Rendering as the spec states it (§4.5): the tokens joined with
single-space separators, no leading or trailing space; the empty sequence
renders as the empty string. -/
def joinWithSpaces : List (List Char) → List Char
  | [] => []
  | [s] => s
  | s :: t :: rest => s ++ ' ' :: joinWithSpaces (t :: rest)

/-! ## Derived notions used by the statements -/

/-- The sum, over the whole context index, of all successor counts: the
total number of transition observations recorded so far. -/
def mapTotal (m : CMap T) : Nat := (m.map (fun p => distTotal p.2)).sum

/-- The chains reachable through the public mutating surface:
construction, order changes and feeds. -/
inductive Reachable : Chain T → Prop where
  | new : Reachable Chain.new
  | set_order {c c' : Chain T} (k : Nat) :
      Reachable c → c.setOrder k = some c' → Reachable c'
  | feed {c : Chain T} (tokens : List T) :
      Reachable c → Reachable (c.feed tokens)

/-- The chain of the `generate` unit test: order 1, fed `[3,5,10]` and then
`[5,12]`. -/
def chain38 : Chain Nat := (Chain.new.feed [3, 5, 10]).feed [5, 12]

/-- The chain `chain38` after `Chain::order(2)`. -/
def chain38order2 : Chain Nat :=
  { map := insertMap chain38.map (List.replicate 2 none) [], order := 2 }

/-! ## Association-list map lemmas -/

theorem lookupMap_insertMap_self (m : CMap T) (key : List (Option T))
    (v : Dist T) : lookupMap (insertMap m key v) key = some v := by
  induction m with
  | nil => simp [insertMap, lookupMap]
  | cons p rest ih =>
    obtain ⟨k, v'⟩ := p
    by_cases h : k = key <;> simp [insertMap, lookupMap, h, ih]

theorem lookupMap_insertMap_ne (m : CMap T) (key k0 : List (Option T))
    (v : Dist T) (h : k0 ≠ key) :
    lookupMap (insertMap m key v) k0 = lookupMap m k0 := by
  have h' : key ≠ k0 := Ne.symm h
  induction m with
  | nil => simp [insertMap, lookupMap, h']
  | cons p rest ih =>
    obtain ⟨k, v'⟩ := p
    by_cases hk : k = key
    · subst hk
      simp [insertMap, lookupMap, h']
    · simp [insertMap, lookupMap, hk, ih]

theorem lookupMap_updateMap (m : CMap T) (key : List (Option T))
    (f : Dist T → Dist T) (k0 : List (Option T)) :
    lookupMap (updateMap m key f) k0 =
      if k0 = key then (lookupMap m key).map f else lookupMap m k0 := by
  induction m with
  | nil => simp [updateMap, lookupMap]
  | cons p rest ih =>
    obtain ⟨k, v⟩ := p
    by_cases hk : k = key
    · subst hk
      by_cases h0 : k = k0
      · subst h0
        simp [updateMap, lookupMap]
      · have h0' : ¬k0 = k := fun hh => h0 hh.symm
        simp [updateMap, lookupMap, h0, h0']
    · by_cases h0 : k = k0
      · subst h0
        simp [updateMap, lookupMap, hk]
      · simp [updateMap, lookupMap, hk, h0, ih]

/-! ## C7: feeding the empty sequence is a no-op -/

/-- C7: method `feed` of an empty token sequence returns the chain unchanged, so
no keys are created, no counts change, and `is_empty` answers the same. -/
theorem feed_empty_is_noop (c : Chain T) :
    c.feed [] = c ∧ (c.feed []).is_empty = c.is_empty ∧
    (c.feed []).map = c.map :=
  ⟨rfl, rfl, rfl⟩

/-! ## C4: generating from an untrained chain is a fatal failure -/

/-- C4: when `is_empty` answers `true` (the all-boundary start window's
distribution is empty), `generate` is the explicit empty-distribution
failure — the modelled panic of `gen_range(0, 0)` — never a silently wrong
result. -/
theorem generate_on_empty_chain_is_fatal (c : Chain T) (draws : Nat → Nat)
    (fuel : Nat) (h : c.is_empty = some true) :
    c.generate draws (fuel + 1) = .error .emptyDist := by
  unfold Chain.is_empty at h
  cases hl : lookupMap c.map (List.replicate c.order none) with
  | none => rw [hl] at h; simp at h
  | some d =>
    rw [hl] at h
    have hd : d = [] := by
      cases d with
      | nil => rfl
      | cons p rest => simp [List.isEmpty] at h
    subst hd
    show genLoop c.map c.order draws 0 (List.replicate c.order none) []
      (fuel + 1) = .error .emptyDist
    rw [genLoop, hl]
    rfl

theorem generate_on_empty_chain_is_fatal_witness :
    (Chain.new (T := Nat)).is_empty = some true ∧
    (Chain.new (T := Nat)).generate (fun _ => 0) 1 = .error .emptyDist :=
  ⟨by decide, generate_on_empty_chain_is_fatal Chain.new (fun _ => 0) 0
    (by decide)⟩

/-! ## C5: changing the order only touches the new start entry -/

/-- C5: calling `Chain::order(k)` for positive `k` sets the order, inserts a fresh
all-boundary entry of length `k` with an empty distribution, and leaves
every other entry of the context index unchanged. -/
theorem setOrder_fresh_start_entry_preserves_rest (c : Chain T) (k : Nat)
    (c' : Chain T) (hk : 1 ≤ k) (h : c.setOrder k = some c')
    (key : List (Option T)) (hkey : key ≠ List.replicate k none) :
    c'.order = k ∧
    lookupMap c'.map (List.replicate k none) = some [] ∧
    lookupMap c'.map key = lookupMap c.map key := by
  unfold Chain.setOrder at h
  rw [if_neg (by omega)] at h
  obtain rfl := Option.some.inj h.symm
  exact ⟨rfl, lookupMap_insertMap_self c.map _ [],
    lookupMap_insertMap_ne c.map _ key [] hkey⟩

theorem setOrder_fresh_start_entry_preserves_rest_witness :
    (1 ≤ 2 ∧ chain38.setOrder 2 = some chain38order2 ∧
      ([some 5] : List (Option Nat)) ≠ List.replicate 2 none) ∧
    (chain38order2.order = 2 ∧
      lookupMap chain38order2.map (List.replicate 2 none) = some [] ∧
      lookupMap chain38order2.map [some 5] = lookupMap chain38.map [some 5]) :=
  ⟨⟨by omega, by decide, by decide⟩,
    setOrder_fresh_start_entry_preserves_rest chain38 2 chain38order2
      (by omega) (by decide) [some 5] (by decide)⟩

/-! ## C10: `feed_str` of the empty string is not a no-op -/

/-- C10: splitting the empty string on the space separator keeps the empty
fragment, so `feed_str("")` feeds the one-element sequence containing the
empty-string token and a fresh order-1 chain stops being empty; in
contrast, feeding an empty token vector and the per-line `feed_file`
tokenization of an empty line are both no-ops. -/
theorem feed_str_empty_feeds_empty_token :
    splitSpace [] = [[]] ∧
    (Chain.new.feed_str []).is_empty = some false ∧
    Chain.new.feedFileLine [] = Chain.new ∧
    (Chain.new (T := List Char)).feed [] = Chain.new := by
  decide

/-! ## C9: rendering joins with single spaces -/

theorem foldl_space_init (l : List (List Char)) (a : List Char) :
    l.foldl (fun acc s => acc ++ s ++ [' ']) a =
      a ++ l.foldl (fun acc s => acc ++ s ++ [' ']) [] := by
  induction l generalizing a with
  | nil => simp
  | cons s rest ih =>
    simp only [List.foldl_cons]
    rw [ih (a ++ s ++ [' ']), ih ([] ++ s ++ [' '])]
    simp

theorem foldl_space_eq_join (l : List (List Char)) (h : l ≠ []) :
    l.foldl (fun acc s => acc ++ s ++ [' ']) [] = joinWithSpaces l ++ [' '] := by
  induction l with
  | nil => exact absurd rfl h
  | cons s rest ih =>
    cases rest with
    | nil => simp [joinWithSpaces]
    | cons t ts =>
      rw [List.foldl_cons, foldl_space_init, ih (by simp)]
      simp [joinWithSpaces]

/-- C9: the rendering `vec_to_string` renders a token sequence as the tokens joined with
single-space separators, no leading or trailing space; the empty sequence
renders as the empty string; and `generate_str` is exactly `generate`
followed by that rendering. -/
theorem vec_to_string_joins_with_single_spaces (vec : List (List Char))
    (c : Chain (List Char)) (draws : Nat → Nat) (fuel : Nat) :
    Chain.vec_to_string vec = joinWithSpaces vec ∧
    Chain.vec_to_string [] = [] ∧
    c.generate_str draws fuel = (c.generate draws fuel).map joinWithSpaces := by
  have hmain : ∀ v : List (List Char),
      Chain.vec_to_string v = joinWithSpaces v := by
    intro v
    cases v with
    | nil => rfl
    | cons s rest =>
      unfold Chain.vec_to_string
      rw [foldl_space_eq_join (s :: rest) (by simp)]
      show List.take ((joinWithSpaces (s :: rest) ++ [' ']).length - 1)
        (joinWithSpaces (s :: rest) ++ [' ']) = joinWithSpaces (s :: rest)
      have hlen : (joinWithSpaces (s :: rest) ++ [' ']).length - 1 =
          (joinWithSpaces (s :: rest)).length := by simp
      rw [hlen, List.take_left]
  refine ⟨hmain vec, rfl, ?_⟩
  unfold Chain.generate_str
  rw [funext hmain]

/-! ## C6: seeded generation -/

/-- A successful run of the generation loop only ever appends to the output
accumulated so far. -/
theorem genLoop_ok_extends (m : CMap T) (ord : Nat) (draws : Nat → Nat) :
    ∀ (fuel i : Nat) (curs : List (Option T)) (ret res : List T),
      genLoop m ord draws i curs ret fuel = .ok res →
      ∃ s, res = ret ++ s := by
  intro fuel
  induction fuel with
  | zero =>
    intro i curs ret res h
    simp [genLoop] at h
  | succ fuel ih =>
    intro i curs ret res h
    rw [genLoop] at h
    split at h
    · exact absurd h (by simp)
    · split at h
      · exact absurd h (by simp)
      · split at h
        · exact absurd h (by simp)
        · rename_i d hl h0 nxt hn
          have hr : ∃ s0, genPush ret nxt = ret ++ s0 := by
            cases nxt with
            | some t => exact ⟨[t], rfl⟩
            | none => exact ⟨[], by simp [genPush]⟩
          obtain ⟨s0, hs0⟩ := hr
          split at h
          · obtain rfl := Except.ok.inj h
            exact ⟨s0, hs0⟩
          · obtain ⟨s1, hs1⟩ := ih (i + 1) (curs.drop 1 ++ [nxt]) _ res h
            exact ⟨s0 ++ s1, by rw [hs1, hs0, List.append_assoc]⟩

/-- C6: method `generate_from_token` looks up the window of `order` copies of the
seed; when that window is absent it returns the empty sequence — a defined
result, not a failure — and when it is present every successfully returned
sequence starts with the seed. -/
theorem generate_from_token_absent_empty_present_head (c : Chain T) (t : T)
    (draws : Nat → Nat) (fuel : Nat) (res : List T) :
    (lookupMap c.map (List.replicate c.order (some t)) = none →
      c.generate_from_token t draws fuel = .ok []) ∧
    ((lookupMap c.map (List.replicate c.order (some t))).isSome = true →
      c.generate_from_token t draws fuel = .ok res →
      res.head? = some t) := by
  constructor
  · intro h
    unfold Chain.generate_from_token
    rw [if_pos h]
  · intro hsome h
    unfold Chain.generate_from_token at h
    have hne : ¬lookupMap c.map (List.replicate c.order (some t)) = none := by
      intro hx
      rw [hx] at hsome
      simp at hsome
    rw [if_neg hne] at h
    obtain ⟨s, hs⟩ := genLoop_ok_extends c.map c.order draws fuel 0
      (List.replicate c.order (some t)) [t] res h
    rw [hs]
    rfl

theorem generate_from_token_absent_empty_present_head_witness :
    chain38.generate_from_token 9 (fun _ => 0) 10 = .ok [] ∧
    ([5, 10] : List Nat).head? = some 5 :=
  ⟨(generate_from_token_absent_empty_present_head chain38 9 (fun _ => 0) 10
      []).1 (by decide),
   (generate_from_token_absent_empty_present_head chain38 5 (fun _ => 0) 10
      [5, 10]).2 (by decide) (by rfl)⟩

/-! ## C8: the all-boundary start window is always present -/

theorem lookupMap_insertMap_isSome (m : CMap T) (key k0 : List (Option T))
    (v : Dist T) (h : (lookupMap m k0).isSome = true) :
    (lookupMap (insertMap m key v) k0).isSome = true := by
  by_cases hk : k0 = key
  · subst hk
    rw [lookupMap_insertMap_self]
    rfl
  · rw [lookupMap_insertMap_ne m key k0 v hk]
    exact h

theorem lookupMap_feedWindow_isSome (ord : Nat) (m : CMap T)
    (p k0 : List (Option T)) (h : (lookupMap m k0).isSome = true) :
    (lookupMap (feedWindow ord m p) k0).isSome = true := by
  unfold feedWindow
  rw [lookupMap_updateMap]
  by_cases hk : k0 = p.take ord
  · rw [if_pos hk]
    by_cases hsome : (lookupMap m (p.take ord)).isSome = true
    · rw [if_pos hsome]
      obtain ⟨d, hd⟩ := Option.isSome_iff_exists.mp hsome
      rw [hd]
      rfl
    · rw [if_neg hsome, lookupMap_insertMap_self]
      rfl
  · rw [if_neg hk]
    by_cases hsome : (lookupMap m (p.take ord)).isSome = true
    · rw [if_pos hsome]
      exact h
    · rw [if_neg hsome, lookupMap_insertMap_ne m _ k0 [] hk]
      exact h

theorem foldl_feedWindow_isSome (ord : Nat) (ws : List (List (Option T))) :
    ∀ (m : CMap T) (k0 : List (Option T)),
      (lookupMap m k0).isSome = true →
      (lookupMap (ws.foldl (feedWindow ord) m) k0).isSome = true := by
  induction ws with
  | nil => intro m k0 h; exact h
  | cons p rest ih =>
    intro m k0 h
    exact ih (feedWindow ord m p) k0 (lookupMap_feedWindow_isSome ord m p k0 h)

theorem feed_order_eq (c : Chain T) (tokens : List T) :
    (c.feed tokens).order = c.order := by
  unfold Chain.feed
  split <;> rfl

theorem feed_map_isSome (c : Chain T) (tokens : List T)
    (k0 : List (Option T)) (h : (lookupMap c.map k0).isSome = true) :
    (lookupMap (c.feed tokens).map k0).isSome = true := by
  unfold Chain.feed
  split
  · exact h
  · exact foldl_feedWindow_isSome c.order _ c.map k0 h

/-- C8: after any sequence of construction, order changes and feeds, the
all-boundary window of the current order is a key of the context index, so
the lookups of `is_empty` and of `generate`'s first step never miss. -/
theorem start_window_always_present (c : Chain T) (h : Reachable c) :
    (lookupMap c.map (List.replicate c.order none)).isSome = true := by
  induction h with
  | new => rfl
  | set_order k hr heq ih =>
    rename_i c0 c'
    unfold Chain.setOrder at heq
    split at heq
    · exact absurd heq (by simp)
    · obtain rfl := Option.some.inj heq
      simp only []
      rw [lookupMap_insertMap_self]
      rfl
  | feed tokens hr ih =>
    rename_i c0
    rw [feed_order_eq]
    exact feed_map_isSome c0 tokens _ ih

theorem start_window_always_present_witness :
    (lookupMap ((Chain.new (T := Nat)).feed [1, 2]).map
      (List.replicate ((Chain.new (T := Nat)).feed [1, 2]).order none)).isSome
      = true :=
  start_window_always_present (Chain.new.feed [1, 2])
    (Reachable.feed [1, 2] Reachable.new)

/-! ## C2: feeding n tokens records exactly n + 1 observations -/

theorem distTotal_distAdd (d : Dist T) (t : Option T) :
    distTotal (distAdd d t) = distTotal d + 1 := by
  induction d with
  | nil => simp [distAdd, distTotal]
  | cons p rest ih =>
    obtain ⟨k, v⟩ := p
    by_cases h : k = t <;> simp [distAdd, h, distTotal] at ih ⊢ <;> omega

theorem mapTotal_updateMap (m : CMap T) (key : List (Option T))
    (f : Dist T → Dist T) (d : Dist T) (h : lookupMap m key = some d) :
    mapTotal (updateMap m key f) + distTotal d =
      mapTotal m + distTotal (f d) := by
  induction m with
  | nil => simp [lookupMap] at h
  | cons p rest ih =>
    obtain ⟨k, v⟩ := p
    by_cases hk : k = key
    · rw [lookupMap, if_pos hk] at h
      obtain rfl := Option.some.inj h
      simp [updateMap, hk, mapTotal]
      omega
    · rw [lookupMap, if_neg hk] at h
      have := ih h
      simp [updateMap, hk, mapTotal] at this ⊢
      omega

theorem mapTotal_insertMap_absent (m : CMap T) (key : List (Option T))
    (v : Dist T) (h : lookupMap m key = none) :
    mapTotal (insertMap m key v) = mapTotal m + distTotal v := by
  induction m with
  | nil => simp [insertMap, mapTotal]
  | cons p rest ih =>
    obtain ⟨k, v'⟩ := p
    by_cases hk : k = key
    · rw [lookupMap, if_pos hk] at h
      simp at h
    · rw [lookupMap, if_neg hk] at h
      have hi := ih h
      simp [insertMap, hk, mapTotal] at hi ⊢
      omega

theorem mapTotal_feedWindow (ord : Nat) (m : CMap T) (p : List (Option T)) :
    mapTotal (feedWindow ord m p) = mapTotal m + 1 := by
  unfold feedWindow
  cases hl : lookupMap m (p.take ord) with
  | some d =>
    rw [if_pos (by rfl)]
    have h3 := mapTotal_updateMap m (p.take ord)
      (fun d => distAdd d (p.getD ord none)) d hl
    simp only [distTotal_distAdd] at h3
    omega
  | none =>
    rw [if_neg (by simp)]
    have h2 : lookupMap (insertMap m (p.take ord) []) (p.take ord) =
        some [] := lookupMap_insertMap_self m (p.take ord) []
    have h3 := mapTotal_updateMap (insertMap m (p.take ord) []) (p.take ord)
      (fun d => distAdd d (p.getD ord none)) [] h2
    simp only [distTotal_distAdd] at h3
    rw [mapTotal_insertMap_absent m (p.take ord) [] hl] at h3
    simp only [distTotal, List.map_nil, List.sum_nil, Nat.add_zero,
      Nat.zero_add] at h3
    omega

theorem mapTotal_foldl_feedWindow (ord : Nat) (ws : List (List (Option T))) :
    ∀ m : CMap T,
      mapTotal (ws.foldl (feedWindow ord) m) = mapTotal m + ws.length := by
  induction ws with
  | nil => intro m; simp
  | cons p rest ih =>
    intro m
    rw [List.foldl_cons, ih (feedWindow ord m p), mapTotal_feedWindow]
    simp
    omega

theorem windows_length (n : Nat) (hn : 1 ≤ n) (l : List (Option T)) :
    (windows n l).length = l.length + 1 - n := by
  induction l with
  | nil => simp [windows]; omega
  | cons a rest ih =>
    rw [windows]
    by_cases h : n ≤ (a :: rest).length
    · rw [if_pos ⟨h, by omega⟩]
      simp only [List.length_cons, ih]
      simp only [List.length_cons] at h
      omega
    · rw [if_neg (by intro hc; exact h hc.1)]
      simp only [List.length_cons] at h ⊢
      simp only [List.length_nil]
      omega

/-- C2: for a chain of positive order, feeding a non-empty sequence of
length n pads it with `order` boundary markers in front and one at the end,
slides a window of size `order + 1` with stride 1, and the sum of all
counts over all successor distributions grows by exactly n + 1. -/
theorem feed_adds_length_plus_one_observations (c : Chain T)
    (tokens : List T) (hord : 1 ≤ c.order) (hne : tokens ≠ []) :
    mapTotal (c.feed tokens).map = mapTotal c.map + (tokens.length + 1) := by
  unfold Chain.feed
  rw [if_neg (by simpa using hne)]
  simp only []
  rw [mapTotal_foldl_feedWindow, windows_length (c.order + 1) (by omega)]
  simp only [List.length_append, List.length_replicate, List.length_map,
    List.length_cons, List.length_nil]
  omega

theorem feed_adds_length_plus_one_observations_witness :
    (1 ≤ (Chain.new (T := Nat)).order ∧ ([3, 5, 10] : List Nat) ≠ []) ∧
    mapTotal ((Chain.new (T := Nat)).feed [3, 5, 10]).map =
      mapTotal (Chain.new (T := Nat)).map + (([3, 5, 10] : List Nat).length + 1) :=
  ⟨⟨by decide, by decide⟩,
    feed_adds_length_plus_one_observations Chain.new [3, 5, 10] (by decide)
      (by decide)⟩

/-! ## C1: the weighted sampler -/

theorem distPrefix_zero (d : Dist T) : distPrefix d 0 = 0 := rfl

theorem distPrefix_cons (p : Option T × Nat) (rest : Dist T) (i : Nat) :
    distPrefix (p :: rest) (i + 1) = p.2 + distPrefix rest i := by
  simp [distPrefix, List.take_succ_cons]

theorem distPrefix_le_total (d : Dist T) (i : Nat) :
    distPrefix d i ≤ distTotal d := by
  unfold distPrefix distTotal
  conv_rhs => rw [← List.take_append_drop i d]
  rw [List.map_append, List.sum_append]
  exact Nat.le_add_right _ _

theorem distPrefix_succ_get (d : Dist T) (i : Nat) (hi : i < d.length) :
    distPrefix d (i + 1) = distPrefix d i + (d.get ⟨i, hi⟩).2 := by
  unfold distPrefix
  rw [List.take_succ, List.map_append, List.sum_append]
  have : d[i]? = some (d.get ⟨i, hi⟩) := by
    rw [List.getElem?_eq_getElem hi]
    rfl
  rw [this]
  simp

/-- The scan of `States::next` returns the entry at `i` whenever the drawn
value lies in the `i`-th prefix-sum interval (shifted by the running
sum `s`). -/
theorem distScan_hits (d : Dist T) :
    ∀ (i : Nat) (hi : i < d.length) (c s : Nat),
      s + distPrefix d i ≤ c → c < s + distPrefix d (i + 1) →
      distScan d c s = some (d.get ⟨i, hi⟩).1 := by
  induction d with
  | nil => intro i hi; simp at hi
  | cons p rest ih =>
    intro i hi c s h1 h2
    obtain ⟨k, v⟩ := p
    cases i with
    | zero =>
      rw [distPrefix_cons, distPrefix_zero] at h2
      have hgt : s + v > c := by omega
      simp [distScan, hgt]
    | succ j =>
      rw [distPrefix_cons] at h1 h2
      have hle : ¬s + v > c := by
        have := distPrefix_zero rest ▸ (Nat.zero_le (distPrefix rest j))
        omega
      rw [distScan, if_neg hle]
      have hj : j < rest.length := by simpa using hi
      have := ih j hj c (s + v) (by omega) (by omega)
      rw [this]
      rfl

/-- Every draw below the total weight lands in some prefix-sum interval. -/
theorem distTotal_covering (d : Dist T) :
    ∀ c : Nat, c < distTotal d →
      ∃ i, ∃ hi : i < d.length,
        distPrefix d i ≤ c ∧ c < distPrefix d (i + 1) := by
  induction d with
  | nil => intro c hc; simp [distTotal] at hc
  | cons p rest ih =>
    intro c hc
    obtain ⟨k, v⟩ := p
    by_cases h : c < v
    · exact ⟨0, by simp, by simp [distPrefix_zero],
        by rw [distPrefix_cons, distPrefix_zero]; omega⟩
    · have hc' : c - v < distTotal rest := by
        simp [distTotal] at hc ⊢
        omega
      obtain ⟨j, hj, hj1, hj2⟩ := ih (c - v) hc'
      refine ⟨j + 1, by simpa using hj, ?_, ?_⟩
      · rw [distPrefix_cons]
        omega
      · rw [distPrefix_cons]
        omega

/-- When the keys are distinct (as they are in a `HashMap`), the index of
the interval containing a draw is determined by the returned key. -/
theorem distNext_interval_unique (d : Dist T)
    (hnodup : (d.map (fun p => p.1)).Nodup) (c : Nat)
    (i : Nat) (hi : i < d.length) (hc : c < distTotal d)
    (hkey : distNext d c = some (d.get ⟨i, hi⟩).1) :
    distPrefix d i ≤ c ∧ c < distPrefix d (i + 1) := by
  obtain ⟨j, hj, hj1, hj2⟩ := distTotal_covering d c hc
  have hjkey : distNext d c = some (d.get ⟨j, hj⟩).1 :=
    distScan_hits d j hj c 0 (by simpa using hj1) (by simpa using hj2)
  rw [hjkey] at hkey
  have hks : (d.get ⟨j, hj⟩).1 = (d.get ⟨i, hi⟩).1 := Option.some.inj hkey
  have hmj : j < (d.map (fun p => p.1)).length := by simpa using hj
  have hmi : i < (d.map (fun p => p.1)).length := by simpa using hi
  have hgm : (d.map (fun p => p.1)).get ⟨j, hmj⟩ =
      (d.map (fun p => p.1)).get ⟨i, hmi⟩ := by
    rw [List.get_map, List.get_map]
    exact hks
  have : (⟨j, hmj⟩ : Fin (d.map (fun p => p.1)).length) = ⟨i, hmi⟩ :=
    (List.Nodup.get_inj_iff hnodup).mp hgm
  have hji : j = i := by simpa using this
  subst hji
  exact ⟨hj1, hj2⟩

/-- C1: for a non-empty distribution with distinct keys and any draw
`c < W`, `States::next` returns the entry at the unique position whose
prefix-sum interval contains `c` (the first entry whose running sum
strictly exceeds `c`), and consequently each entry is returned for exactly
count-of-that-entry many draws in `[0, W)`. -/
theorem states_next_first_exceeding_and_counts (d : Dist T) (hne : d ≠ [])
    (hnodup : (d.map (fun p => p.1)).Nodup) (c : Nat)
    (hc : c < distTotal d) (i : Nat) (hi : i < d.length) :
    (∃ j, ∃ hj : j < d.length,
        distNext d c = some (d.get ⟨j, hj⟩).1 ∧
        distPrefix d j ≤ c ∧ c < distPrefix d (j + 1)) ∧
    ((Finset.range (distTotal d)).filter
        (fun x => distNext d x = some (d.get ⟨i, hi⟩).1)).card
      = (d.get ⟨i, hi⟩).2 := by
  constructor
  · obtain ⟨j, hj, hj1, hj2⟩ := distTotal_covering d c hc
    exact ⟨j, hj,
      distScan_hits d j hj c 0 (by simpa using hj1) (by simpa using hj2),
      hj1, hj2⟩
  · have hset : (Finset.range (distTotal d)).filter
        (fun x => distNext d x = some (d.get ⟨i, hi⟩).1) =
        Finset.Ico (distPrefix d i) (distPrefix d (i + 1)) := by
      ext x
      simp only [Finset.mem_filter, Finset.mem_range, Finset.mem_Ico]
      constructor
      · rintro ⟨hx, hnext⟩
        exact distNext_interval_unique d hnodup x i hi hx hnext
      · rintro ⟨h1, h2⟩
        have hx : x < distTotal d :=
          Nat.lt_of_lt_of_le h2 (distPrefix_le_total d (i + 1))
        exact ⟨hx,
          distScan_hits d i hi x 0 (by simpa using h1) (by simpa using h2)⟩
    rw [hset, Nat.card_Ico, distPrefix_succ_get d i hi]
    omega

theorem states_next_first_exceeding_and_counts_witness :
    (([(some 0, 3), (none, 1)] : Dist Nat) ≠ [] ∧
      (([(some 0, 3), (none, 1)] : Dist Nat).map (fun p => p.1)).Nodup ∧
      3 < distTotal ([(some 0, 3), (none, 1)] : Dist Nat) ∧
      1 < ([(some 0, 3), (none, 1)] : Dist Nat).length) ∧
    ((∃ j, ∃ hj : j < ([(some 0, 3), (none, 1)] : Dist Nat).length,
        distNext ([(some 0, 3), (none, 1)] : Dist Nat) 3 =
          some ((([(some 0, 3), (none, 1)] : Dist Nat)).get ⟨j, hj⟩).1 ∧
        distPrefix ([(some 0, 3), (none, 1)] : Dist Nat) j ≤ 3 ∧
        3 < distPrefix ([(some 0, 3), (none, 1)] : Dist Nat) (j + 1)) ∧
    ((Finset.range (distTotal ([(some 0, 3), (none, 1)] : Dist Nat))).filter
        (fun x => distNext ([(some 0, 3), (none, 1)] : Dist Nat) x =
          some ((([(some 0, 3), (none, 1)] : Dist Nat)).get
            ⟨1, by decide⟩).1)).card
      = ((([(some 0, 3), (none, 1)] : Dist Nat)).get ⟨1, by decide⟩).2) :=
  ⟨⟨by decide, by decide, by decide, by decide⟩,
    states_next_first_exceeding_and_counts [(some 0, 3), (none, 1)]
      (by decide) (by decide) 3 (by decide) 1 (by decide)⟩

/-! ## C3: order 1, fed [3,5,10] then [5,12] -/

theorem chain38_map_eq : chain38.map =
    [([none], [(some 3, 1), (some 5, 1)]),
     ([some 3], [(some 5, 1)]),
     ([some 5], [(some 10, 1), (some 12, 1)]),
     ([some 10], [(none, 1)]),
     ([some 12], [(none, 1)])] := by rfl

theorem chain38_order_eq : chain38.order = 1 := rfl

/-- C3: on the order-1 chain fed `[3,5,10]` and then `[5,12]`, `generate`
returns one of `[3,5,10]`, `[3,5,12]`, `[5,10]`, `[5,12]` for every
sequence of draws the sampler can make (any fuel of at least 4 suffices:
every path reaches the boundary within four iterations). -/
theorem generate_order1_two_feeds_results (f : Nat → Nat) (fuel : Nat)
    (hfuel : 4 ≤ fuel) :
    chain38.generate f fuel = .ok [3, 5, 10] ∨
    chain38.generate f fuel = .ok [3, 5, 12] ∨
    chain38.generate f fuel = .ok [5, 10] ∨
    chain38.generate f fuel = .ok [5, 12] := by
  obtain ⟨k, rfl⟩ : ∃ k, fuel = k + 4 := ⟨fuel - 4, by omega⟩
  unfold Chain.generate
  rw [chain38_map_eq, chain38_order_eq]
  have h0 := Nat.mod_two_eq_zero_or_one (f 0)
  have h1 := Nat.mod_two_eq_zero_or_one (f 1)
  have h2 := Nat.mod_two_eq_zero_or_one (f 2)
  rcases h0 with h0 | h0 <;> rcases h1 with h1 | h1 <;>
    rcases h2 with h2 | h2 <;>
    simp [genLoop, lookupMap, distNext, distScan, distTotal, genPush,
      h0, h1, h2, Nat.mod_one]

theorem generate_order1_two_feeds_results_witness :
    4 ≤ 4 ∧
    (chain38.generate (fun _ => 0) 4 = .ok [3, 5, 10] ∨
     chain38.generate (fun _ => 0) 4 = .ok [3, 5, 12] ∨
     chain38.generate (fun _ => 0) 4 = .ok [5, 10] ∨
     chain38.generate (fun _ => 0) 4 = .ok [5, 12]) :=
  ⟨by omega, generate_order1_two_feeds_results (fun _ => 0) 4 (by omega)⟩

end Markov
